import Mathlib

/-!
Verification of `generate_images_json.py`.

The script scans the directory `img`, keeps the entry names whose lowercased
form starts with `"img"` and whose lowercased extension is one of
`.jpg .jpeg .png .webp .gif`, sorts them by the key
`(first digit run as integer, lowercased name)` (with sentinel `10^9` when no
digit occurs) using Python's stable sort, and writes the resulting list as an
indented JSON array to `img/images.json`.

Filenames are modelled as `List Char` (Python `str`, one cell per code point).
Case folding and the digit class are modelled at the ASCII level, which is
exact for the ASCII names the script manipulates: `str.lower` maps `A`–`Z` to
`a`–`z`, and `re`'s `\d` contains exactly `0`–`9` there.
-/

/-- A directory entry name / Python string: a list of characters. -/
abbrev FName := List Char

/-- `name.lower()` (line 8 of the script): character-wise case folding. -/
def lowerName (s : FName) : FName := s.map Char.toLower

/-- `low.startswith("img")` (line 9), applied to the already lowercased name:
the first three characters are `i`, `m`, `g`. -/
def startsWithImg (s : FName) : Bool := s.take 3 == ['i', 'm', 'g']

/-- Helper for `os.path.splitext`: splits a name at its last dot, returning
`(part before the last dot, suffix starting at the last dot)`; `none` when the
name has no dot. -/
def lastDotSplit : FName → Option (FName × FName)
  | [] => none
  | c :: cs =>
    match lastDotSplit cs with
    | some (p, e) => some (c :: p, e)
    | none => if c = '.' then some ([], c :: cs) else none

/-- `os.path.splitext(low)[1]` (line 9) for a bare directory entry name (names
returned by `os.listdir` contain no path separator): the extension is the
suffix starting at the last dot, except that it is empty when every character
before that dot is itself a dot (CPython's `genericpath._splitext`). -/
def splitextExt (s : FName) : FName :=
  match lastDotSplit s with
  | none => []
  | some (p, e) => if p.all (fun c => c == '.') then [] else e

/-- The `allowed` set of extensions (line 4 of the script). -/
def allowed : List FName :=
  [".jpg".data, ".jpeg".data, ".png".data, ".webp".data, ".gif".data]

/-- The test on line 9 of the script:
`low.startswith("img") and os.path.splitext(low)[1] in allowed`. -/
def matchesFilter (name : FName) : Bool :=
  let low := lowerName name
  startsWithImg low && decide (splitextExt low ∈ allowed)

/-- The loop of lines 6–10: keep the entries passing the test, in listing
order. -/
def filesOf (entries : List FName) : List FName := entries.filter matchesFilter

/-- `re.search(r'(\d+)', s)` (line 15): the first maximal run of digits in
`s`, or `none` when `s` has no digit. -/
def firstRun : FName → Option FName
  | [] => none
  | c :: cs =>
    if c.isDigit then some (c :: cs.takeWhile Char.isDigit) else firstRun cs

/-- `int(run)`: base-10 value of a digit string (Python integers are unbounded,
as is `Nat`). -/
def digitsVal (r : FName) : Nat := r.foldl (fun a c => 10 * a + (c.toNat - 48)) 0

/-- Numeric component of the sort key (line 16):
`int(m.group(1)) if m else 10**9`. -/
def natKey (s : FName) : Nat :=
  match firstRun s with
  | some r => digitsVal r
  | none => 10 ^ 9

/-- `keyfn` (lines 13–16): the pair `(numeric key, s.lower())`. -/
def keyfn (s : FName) : Nat × FName := (natKey s, lowerName s)

/-- Python string `<=`: lexicographic comparison by code point. -/
def strLe : FName → FName → Bool
  | [], _ => true
  | _ :: _, [] => false
  | a :: as, b :: bs =>
    if a < b then true
    else if b < a then false
    else strLe as bs

/-- Python tuple `<=` on the sort keys: compare the integers first, then the
lowercased names. -/
def keyLe (a b : FName) : Bool :=
  if (keyfn a).1 < (keyfn b).1 then true
  else if (keyfn b).1 < (keyfn a).1 then false
  else strLe (keyfn a).2 (keyfn b).2

/-- Insert `a` into `l` before the first element `b` with `a ≤ b`; elements
strictly smaller than `a` (and, read together with `isort`, elements equal to
`a` that occurred earlier in the input) stay in front of it. -/
def insertOrd (le : FName → FName → Bool) (a : FName) : List FName → List FName
  | [] => [a]
  | b :: l => if le a b then a :: b :: l else b :: insertOrd le a l

/-- A stable sort by the comparator `le`. `files.sort(key=keyfn)` (line 18) is
Python's stable Timsort; any two stable sorts for the same total preorder agree
on every input, so this insertion sort computes exactly the list Python
produces. -/
def isort (le : FName → FName → Bool) : List FName → List FName
  | [] => []
  | a :: l => insertOrd le a (isort le l)

/-- Lines 6–18 end to end: the ordered manifest produced from a directory
listing. -/
def buildManifest (entries : List FName) : List FName :=
  isort keyLe (filesOf entries)

/-- `a` occurs (strictly) before `b` in the list `l`. -/
def precedes (l : List FName) (a b : FName) : Prop := [a, b].Sublist l

/-- The name of the output file, `"images.json"` (line 20). -/
def imagesJsonName : FName := "images.json".data

/-- Hexadecimal digit, lower case (as produced by Python's `\uXXXX` escapes). -/
def hexDig (n : Nat) : Char :=
  if n < 10 then Char.ofNat (48 + n) else Char.ofNat (87 + n)

/-- JSON string escaping as done by `json.dump(..., ensure_ascii=False)`:
`"` and `\` are backslash-escaped, control characters get their short escapes
or `\u00XX`, everything else (including non-ASCII) is written as is. -/
def escapeChar (c : Char) : List Char :=
  if c = '"' then ['\\', '"']
  else if c = '\\' then ['\\', '\\']
  else if c.toNat = 8 then ['\\', 'b']
  else if c.toNat = 9 then ['\\', 't']
  else if c.toNat = 10 then ['\\', 'n']
  else if c.toNat = 12 then ['\\', 'f']
  else if c.toNat = 13 then ['\\', 'r']
  else if c.toNat < 32 then
    ['\\', 'u', '0', '0', hexDig (c.toNat / 16), hexDig (c.toNat % 16)]
  else [c]

/-- A JSON string literal for one filename. -/
def encodeString (s : FName) : List Char :=
  '"' :: (s.map escapeChar).flatten ++ ['"']

/-- Join the per-element lines of an indented JSON array with `",\n"`. -/
def joinItems : List (List Char) → List Char
  | [] => []
  | [x] => x
  | x :: xs => x ++ [',', '\n'] ++ joinItems xs

/-- `json.dump(files, f, ensure_ascii=False, indent=2)` (line 22): the exact
character stream written to `images.json`. An empty list serializes to `[]`;
otherwise each element sits on its own line indented by two spaces. -/
def serializeManifest (files : List FName) : List Char :=
  match files with
  | [] => ['[', ']']
  | _ :: _ =>
    ['[', '\n'] ++ joinItems (files.map (fun f => [' ', ' '] ++ encodeString f))
      ++ ['\n', ']']

/-- State of the `img` directory as the script sees it: `entries` is what
`os.listdir` returns (`none` when listing fails: directory missing, not a
directory, or unreadable — `os.listdir` then raises), and `manifestFile` is
the current content of `img/images.json` (`none` when absent). -/
structure DirState where
  entries : Option (List FName)
  manifestFile : Option (List Char)
deriving DecidableEq

/-- Outcome of one invocation of the script: normal termination with the
printed count, or termination by an uncaught exception. -/
inductive RunResult where
  | ok (final : DirState) (count : Nat)
  | err (final : DirState)
deriving DecidableEq

/-- One run of the script. When `os.listdir` (line 7) raises, the exception is
uncaught: lines 8–24 never execute, nothing is written, and the interpreter
exits. Otherwise the manifest is built and written over `img/images.json`
(lines 20–22) and the count is printed (line 24). -/
def runProgram (d : DirState) : RunResult :=
  match d.entries with
  | none => RunResult.err d
  | some es =>
    let fs := buildManifest es
    RunResult.ok { d with manifestFile := some (serializeManifest fs) } fs.length

/-- Process exit status: 0 on normal termination, 1 when the interpreter dies
on an uncaught exception. -/
def exitCode : RunResult → Nat
  | RunResult.ok _ _ => 0
  | RunResult.err _ => 1

/-- The directory state after a run. -/
def finalState : RunResult → DirState
  | RunResult.ok d _ => d
  | RunResult.err d => d

/-- A directory entry as it exists on disk: a name plus whether the entry is a
subdirectory. `os.listdir` (line 7) returns the names of all entries, files
and subdirectories alike, and nothing else in the script consults the entry
kind. -/
structure DirEntry where
  name : FName
  isDir : Bool
deriving DecidableEq

/-- The name list `os.listdir` produces from a listing with entry kinds. -/
def listingNames (l : List DirEntry) : List FName := l.map DirEntry.name

/-- The manifest built from a directory listing that records entry kinds. -/
def manifestOfDir (l : List DirEntry) : List FName :=
  buildManifest (listingNames l)

/-- Spec-side reading of "lowercased extension": the suffix of the lowercased
name starting at its last dot (empty when there is no dot). Stated from the
spec's words, to be compared with `splitextExt` from the code. -/
def specExt (s : FName) : FName :=
  match lastDotSplit (lowerName s) with
  | none => []
  | some (_, e) => e

/-- Spec-side validity of a candidate filename: lowercased name starts with
`"img"` and the lowercased extension is in the allowed set. -/
def specMatches (name : FName) : Prop :=
  startsWithImg (lowerName name) = true ∧ specExt name ∈ allowed

/-- `true` when the list is empty or its first character is not a digit: the
condition under which a digit run ends exactly where the list starts. -/
def headNotDigit : FName → Bool
  | [] => true
  | c :: _ => !c.isDigit

-- Sanity check: the scenario from the spec.
example :
    buildManifest
      ["img2.png".data, "img10.webp".data, "img1.jpg".data,
        "cover.png".data, "IMG3.GIF".data] =
      ["img1.jpg".data, "img2.png".data, "IMG3.GIF".data, "img10.webp".data] := by
  decide

example : matchesFilter imagesJsonName = false := by decide

example : natKey ("img10_v2.jpg".data) = 10 := by decide

example : splitextExt ("..png".data) = [] := by decide

/-! ### Order lemmas for the comparator -/

theorem strLe_cons_iff {x y : Char} {xs ys : FName} :
    strLe (x :: xs) (y :: ys) = true ↔ x < y ∨ (x = y ∧ strLe xs ys = true) := by
  rcases lt_trichotomy x y with h | h | h
  · simp [strLe, h]
  · simp [strLe, h, lt_irrefl]
  · simp [strLe, not_lt_of_gt h, h, h.ne']

theorem strLe_refl (s : FName) : strLe s s = true := by
  induction s with
  | nil => rfl
  | cons c cs ih => simp [strLe, lt_irrefl, ih]

theorem strLe_total (a b : FName) : strLe a b = true ∨ strLe b a = true := by
  induction a generalizing b with
  | nil => exact Or.inl rfl
  | cons x xs ih =>
    cases b with
    | nil => exact Or.inr rfl
    | cons y ys =>
      rcases lt_trichotomy x y with h | h | h
      · exact Or.inl (strLe_cons_iff.mpr (Or.inl h))
      · rcases ih ys with hs | hs
        · exact Or.inl (strLe_cons_iff.mpr (Or.inr ⟨h, hs⟩))
        · exact Or.inr (strLe_cons_iff.mpr (Or.inr ⟨h.symm, hs⟩))
      · exact Or.inr (strLe_cons_iff.mpr (Or.inl h))

theorem strLe_trans {a b c : FName} (hab : strLe a b = true)
    (hbc : strLe b c = true) : strLe a c = true := by
  induction a generalizing b c with
  | nil => rfl
  | cons x xs ih =>
    cases b with
    | nil => exact absurd hab (by simp [strLe])
    | cons y ys =>
      cases c with
      | nil => exact absurd hbc (by simp [strLe])
      | cons z zs =>
        rcases strLe_cons_iff.mp hab with h1 | ⟨h1, h1s⟩
        · rcases strLe_cons_iff.mp hbc with h2 | ⟨h2, _⟩
          · exact strLe_cons_iff.mpr (Or.inl (lt_trans h1 h2))
          · exact strLe_cons_iff.mpr (Or.inl (h2 ▸ h1))
        · rcases strLe_cons_iff.mp hbc with h2 | ⟨h2, h2s⟩
          · exact strLe_cons_iff.mpr (Or.inl (h1 ▸ h2))
          · exact strLe_cons_iff.mpr (Or.inr ⟨h1.trans h2, ih h1s h2s⟩)

theorem strLe_antisymm {a b : FName} (hab : strLe a b = true)
    (hba : strLe b a = true) : a = b := by
  induction a generalizing b with
  | nil =>
    cases b with
    | nil => rfl
    | cons y ys => exact absurd hba (by simp [strLe])
  | cons x xs ih =>
    cases b with
    | nil => exact absurd hab (by simp [strLe])
    | cons y ys =>
      rcases strLe_cons_iff.mp hab with h1 | ⟨h1, h1s⟩
      · rcases strLe_cons_iff.mp hba with h2 | ⟨h2, _⟩
        · exact absurd h1 (lt_asymm h2)
        · exact absurd h1 (by simp [h2])
      · rcases strLe_cons_iff.mp hba with h2 | ⟨h2, h2s⟩
        · exact absurd h2 (by simp [h1])
        · rw [h1, ih h1s h2s]

theorem keyLe_iff {a b : FName} :
    keyLe a b = true ↔
      natKey a < natKey b ∨
        (natKey a = natKey b ∧ strLe (lowerName a) (lowerName b) = true) := by
  unfold keyLe keyfn
  rcases lt_trichotomy (natKey a) (natKey b) with h | h | h
  · simp [h]
  · simp [h, lt_irrefl]
  · simp [not_lt_of_gt h, h, h.ne']

theorem keyLe_total (a b : FName) : keyLe a b = true ∨ keyLe b a = true := by
  rcases lt_trichotomy (natKey a) (natKey b) with h | h | h
  · exact Or.inl (keyLe_iff.mpr (Or.inl h))
  · rcases strLe_total (lowerName a) (lowerName b) with hs | hs
    · exact Or.inl (keyLe_iff.mpr (Or.inr ⟨h, hs⟩))
    · exact Or.inr (keyLe_iff.mpr (Or.inr ⟨h.symm, hs⟩))
  · exact Or.inr (keyLe_iff.mpr (Or.inl h))

theorem keyLe_trans {a b c : FName} (hab : keyLe a b = true)
    (hbc : keyLe b c = true) : keyLe a c = true := by
  rcases keyLe_iff.mp hab with h1 | ⟨h1, h1s⟩
  · rcases keyLe_iff.mp hbc with h2 | ⟨h2, _⟩
    · exact keyLe_iff.mpr (Or.inl (lt_trans h1 h2))
    · exact keyLe_iff.mpr (Or.inl (h2 ▸ h1))
  · rcases keyLe_iff.mp hbc with h2 | ⟨h2, h2s⟩
    · exact keyLe_iff.mpr (Or.inl (h1 ▸ h2))
    · exact keyLe_iff.mpr (Or.inr ⟨h1.trans h2, strLe_trans h1s h2s⟩)

theorem keyLe_of_keyfn_eq {a b : FName} (h : keyfn a = keyfn b) :
    keyLe a b = true := by
  have h1 : natKey a = natKey b := congrArg Prod.fst h
  have h2 : lowerName a = lowerName b := congrArg Prod.snd h
  exact keyLe_iff.mpr (Or.inr ⟨h1, h2 ▸ strLe_refl (lowerName a)⟩)

theorem keyfn_eq_of_keyLe_both {a b : FName} (hab : keyLe a b = true)
    (hba : keyLe b a = true) : keyfn a = keyfn b := by
  rcases keyLe_iff.mp hab with h1 | ⟨h1, h1s⟩
  · rcases keyLe_iff.mp hba with h2 | ⟨h2, _⟩
    · exact absurd h1 (lt_asymm h2)
    · exact absurd h1 (by simp [h2])
  · rcases keyLe_iff.mp hba with h2 | ⟨h2, h2s⟩
    · exact absurd h2 (by simp [h1])
    · have : lowerName a = lowerName b := strLe_antisymm h1s h2s
      unfold keyfn
      rw [h1, this]

/-! ### The sort: permutation, sortedness, stability -/

theorem insertOrd_perm (le : FName → FName → Bool) (a : FName)
    (l : List FName) : (insertOrd le a l).Perm (a :: l) := by
  induction l with
  | nil => exact List.Perm.refl _
  | cons b t ih =>
    by_cases h : le a b = true
    · rw [insertOrd, if_pos h]
    · rw [insertOrd, if_neg h]
      exact (ih.cons b).trans (List.Perm.swap a b t)

theorem isort_perm (le : FName → FName → Bool) (l : List FName) :
    (isort le l).Perm l := by
  induction l with
  | nil => exact List.Perm.refl _
  | cons a t ih =>
    rw [isort]
    exact (insertOrd_perm le a (isort le t)).trans (ih.cons a)

theorem mem_insertOrd {le : FName → FName → Bool} {a x : FName}
    {l : List FName} : x ∈ insertOrd le a l ↔ x = a ∨ x ∈ l := by
  rw [(insertOrd_perm le a l).mem_iff]
  simp

theorem mem_buildManifest {E : List FName} {x : FName} :
    x ∈ buildManifest E ↔ x ∈ E ∧ matchesFilter x = true := by
  unfold buildManifest
  rw [(isort_perm keyLe (filesOf E)).mem_iff]
  exact List.mem_filter

theorem pairwise_insertOrd {a : FName} {l : List FName}
    (h : l.Pairwise (fun u v => keyLe u v = true)) :
    (insertOrd keyLe a l).Pairwise (fun u v => keyLe u v = true) := by
  induction l with
  | nil => simp [insertOrd]
  | cons b t ih =>
    rcases List.pairwise_cons.mp h with ⟨hb, ht⟩
    by_cases hab : keyLe a b = true
    · rw [insertOrd, if_pos hab]
      refine List.pairwise_cons.mpr ⟨?_, h⟩
      intro x hx
      rcases List.mem_cons.mp hx with rfl | hx
      · exact hab
      · exact keyLe_trans hab (hb x hx)
    · rw [insertOrd, if_neg hab]
      refine List.pairwise_cons.mpr ⟨?_, ih ht⟩
      intro x hx
      rcases mem_insertOrd.mp hx with rfl | hx
      · rcases keyLe_total x b with h1 | h1
        · exact absurd h1 hab
        · exact h1
      · exact hb x hx

theorem pairwise_isort (l : List FName) :
    (isort keyLe l).Pairwise (fun u v => keyLe u v = true) := by
  induction l with
  | nil => simp [isort]
  | cons a t ih =>
    rw [isort]
    exact pairwise_insertOrd ih

theorem pairwise_buildManifest (E : List FName) :
    (buildManifest E).Pairwise (fun u v => keyLe u v = true) :=
  pairwise_isort (filesOf E)

theorem filter_insertOrd_neg {p : FName → Bool} {le : FName → FName → Bool}
    {a : FName} {l : List FName} (h : p a = false) :
    (insertOrd le a l).filter p = l.filter p := by
  induction l with
  | nil => simp [insertOrd, List.filter_cons, h]
  | cons b t ih =>
    by_cases hab : le a b = true
    · rw [insertOrd, if_pos hab]
      simp [List.filter_cons, h]
    · rw [insertOrd, if_neg hab]
      cases hpb : p b <;> simp [List.filter_cons, hpb, ih]

theorem filter_insertOrd_pos {p : FName → Bool} {le : FName → FName → Bool}
    {a : FName} {l : List FName} (h : p a = true)
    (hc : ∀ b, p b = true → le a b = true) :
    (insertOrd le a l).filter p = a :: l.filter p := by
  induction l with
  | nil => simp [insertOrd, List.filter_cons, h]
  | cons b t ih =>
    by_cases hab : le a b = true
    · rw [insertOrd, if_pos hab]
      simp [List.filter_cons, h]
    · rw [insertOrd, if_neg hab]
      have hpb : p b = false := by
        cases hpb : p b
        · rfl
        · exact absurd (hc b hpb) hab
      simp [List.filter_cons, hpb, ih]

theorem filter_isort {p : FName → Bool} {le : FName → FName → Bool}
    (hc : ∀ x y, p x = true → p y = true → le x y = true) (l : List FName) :
    (isort le l).filter p = l.filter p := by
  induction l with
  | nil => rfl
  | cons a t ih =>
    rw [isort]
    cases hpa : p a
    · rw [filter_insertOrd_neg hpa, ih]
      simp [List.filter_cons, hpa]
    · rw [filter_insertOrd_pos hpa (fun b hb => hc a b hpa hb), ih]
      simp [List.filter_cons, hpa]

theorem precedes_isort_iff {a b : FName} {l : List FName}
    (hk : keyfn a = keyfn b) :
    precedes (isort keyLe l) a b ↔ precedes l a b := by
  have hc : ∀ x y, decide (keyfn x = keyfn a) = true →
      decide (keyfn y = keyfn a) = true → keyLe x y = true := by
    intro x y hx hy
    rw [decide_eq_true_iff] at hx hy
    exact keyLe_of_keyfn_eq (hx.trans hy.symm)
  have hfil := filter_isort hc l
  have hpair :
      [a, b].filter (fun x => decide (keyfn x = keyfn a)) = [a, b] := by
    simp [List.filter_cons, hk]
  constructor
  · intro h
    have h2 := List.Sublist.filter (fun x => decide (keyfn x = keyfn a)) h
    rw [hpair, hfil] at h2
    exact h2.trans (List.filter_sublist l)
  · intro h
    have h2 := List.Sublist.filter (fun x => decide (keyfn x = keyfn a)) h
    rw [hpair, ← hfil] at h2
    exact h2.trans (List.filter_sublist (isort keyLe l))

theorem pair_sublist_or {a b : FName} (hne : a ≠ b) :
    ∀ {l : List FName}, a ∈ l → b ∈ l →
      [a, b].Sublist l ∨ [b, a].Sublist l := by
  intro l
  induction l with
  | nil => intro ha _; simp at ha
  | cons c t ih =>
    intro ha hb
    rcases List.mem_cons.mp ha with rfl | hat
    · have hbt : b ∈ t := by
        rcases List.mem_cons.mp hb with h | h
        · exact absurd h.symm hne
        · exact h
      exact Or.inl (List.Sublist.cons₂ a (List.singleton_sublist.mpr hbt))
    · rcases List.mem_cons.mp hb with rfl | hbt
      · exact Or.inr (List.Sublist.cons₂ b (List.singleton_sublist.mpr hat))
      · exact (ih hat hbt).imp (List.Sublist.cons c) (List.Sublist.cons c)

theorem keyLe_of_precedes {E : List FName} {a b : FName}
    (h : precedes (buildManifest E) a b) : keyLe a b = true := by
  have hp := (pairwise_buildManifest E).sublist h
  exact (List.pairwise_cons.mp hp).1 b (by simp)

/-! ### The numeric key -/

theorem firstRun_eq_none_of_no_digit :
    ∀ {s : FName}, s.any Char.isDigit = false → firstRun s = none := by
  intro s
  induction s with
  | nil => intro _; rfl
  | cons c cs ih =>
    intro h
    simp only [List.any_cons, Bool.or_eq_false_iff] at h
    rw [firstRun, if_neg (by simp [h.1]), ih h.2]

theorem natKey_of_no_digit {s : FName} (h : s.any Char.isDigit = false) :
    natKey s = 10 ^ 9 := by
  unfold natKey
  rw [firstRun_eq_none_of_no_digit h]

theorem takeWhile_digits_append {rs rest : FName}
    (h : rs.all Char.isDigit = true) (hrest : headNotDigit rest = true) :
    (rs ++ rest).takeWhile Char.isDigit = rs := by
  induction rs with
  | nil =>
    cases rest with
    | nil => rfl
    | cons c t =>
      have hc : c.isDigit = false := by
        simpa [headNotDigit] using hrest
      simp [List.takeWhile_cons, hc]
  | cons r rs ih =>
    simp only [List.all_cons, Bool.and_eq_true] at h
    simp [List.takeWhile_cons, h.1, ih h.2]

theorem firstRun_decomp {pre run rest : FName}
    (hpre : pre.all (fun c => !c.isDigit) = true) (hrun : run ≠ [])
    (hrund : run.all Char.isDigit = true)
    (hrest : headNotDigit rest = true) :
    firstRun (pre ++ run ++ rest) = some run := by
  induction pre with
  | nil =>
    cases run with
    | nil => exact absurd rfl hrun
    | cons r rs =>
      simp only [List.all_cons, Bool.and_eq_true] at hrund
      simp only [List.nil_append, List.cons_append]
      rw [firstRun, if_pos hrund.1, takeWhile_digits_append hrund.2 hrest]
  | cons p ps ih =>
    simp only [List.all_cons, Bool.and_eq_true] at hpre
    have hp : p.isDigit = false := by
      simpa using hpre.1
    simp only [List.cons_append]
    rw [firstRun, if_neg (by simp [hp])]
    exact ih hpre.2

theorem natKey_decomp {pre run rest : FName}
    (hpre : pre.all (fun c => !c.isDigit) = true) (hrun : run ≠ [])
    (hrund : run.all Char.isDigit = true)
    (hrest : headNotDigit rest = true) :
    natKey (pre ++ run ++ rest) = digitsVal run := by
  unfold natKey
  rw [firstRun_decomp hpre hrun hrund hrest]

/-! ### Filter: code-side versus spec-side extension -/

theorem startsWithImg_iff {s : FName} :
    startsWithImg s = true ↔ s.take 3 = ['i', 'm', 'g'] := by
  unfold startsWithImg
  exact beq_iff_eq

theorem lastDotSplit_eq_some :
    ∀ {s p e : FName}, lastDotSplit s = some (p, e) →
      s = p ++ e ∧ ∃ t, e = '.' :: t := by
  intro s
  induction s with
  | nil => intro p e h; exact absurd h (by simp [lastDotSplit])
  | cons c cs ih =>
    intro p e h
    rw [lastDotSplit] at h
    cases hcs : lastDotSplit cs with
    | some pe =>
      obtain ⟨p', e'⟩ := pe
      rw [hcs] at h
      have h2 : (c :: p', e') = (p, e) := Option.some.inj h
      obtain ⟨hp, he⟩ := Prod.mk.injEq .. ▸ h2
      subst hp
      subst he
      obtain ⟨hcs1, hcs2⟩ := ih hcs
      exact ⟨by rw [List.cons_append, ← hcs1], hcs2⟩
    | none =>
      rw [hcs] at h
      by_cases hc : c = '.'
      · rw [if_pos hc] at h
        have h2 : (([] : FName), c :: cs) = (p, e) := Option.some.inj h
        obtain ⟨hp, he⟩ := Prod.mk.injEq .. ▸ h2
        subst hp
        subst he
        exact ⟨rfl, cs, by rw [hc]⟩
      · rw [if_neg hc] at h
        exact absurd h (by simp)

theorem not_all_dots {s p e : FName} (himg : startsWithImg s = true)
    (hs : lastDotSplit s = some (p, e)) :
    p.all (fun c => c == '.') = false := by
  obtain ⟨hse, t, het⟩ := lastDotSplit_eq_some hs
  have htake := startsWithImg_iff.mp himg
  cases p with
  | nil =>
    rw [hse, het] at htake
    simp only [List.nil_append, List.take_succ_cons] at htake
    injection htake with h1 _
    exact absurd h1 (by decide)
  | cons c ps =>
    rw [hse] at htake
    simp only [List.cons_append, List.take_succ_cons] at htake
    have hc : c = 'i' := by injection htake
    rw [List.all_cons, hc]
    simp

theorem splitextExt_eq_specExt {name : FName}
    (h1 : startsWithImg (lowerName name) = true) :
    splitextExt (lowerName name) = specExt name := by
  unfold splitextExt specExt
  cases hs : lastDotSplit (lowerName name) with
  | none => rfl
  | some pe =>
    obtain ⟨p, e⟩ := pe
    show (if p.all (fun c => c == '.') then ([] : FName) else e) = e
    rw [not_all_dots h1 hs]
    simp

theorem matchesFilter_iff_spec {name : FName} :
    matchesFilter name = true ↔ specMatches name := by
  unfold matchesFilter specMatches
  simp only [Bool.and_eq_true, decide_eq_true_iff]
  constructor
  · rintro ⟨h1, h2⟩
    refine ⟨h1, ?_⟩
    rw [← splitextExt_eq_specExt h1]
    exact h2
  · rintro ⟨h1, h2⟩
    refine ⟨h1, ?_⟩
    rw [splitextExt_eq_specExt h1]
    exact h2

theorem count_eq_one_of_nodup {x : FName} :
    ∀ {l : List FName}, l.Nodup → x ∈ l → l.count x = 1 := by
  intro l
  induction l with
  | nil => intro _ h; simp at h
  | cons c t ih =>
    intro hnd hx
    rcases List.mem_cons.mp hx with rfl | hxt
    · have hnt : x ∉ t := (List.nodup_cons.mp hnd).1
      rw [List.count_cons_self, List.count_eq_zero.mpr hnt]
    · have hne : x ≠ c := by
        rintro rfl
        exact (List.nodup_cons.mp hnd).1 hxt
      rw [List.count_cons_of_ne hne]
      exact ih (List.nodup_cons.mp hnd).2 hxt

theorem digitsVal_eq_ofDigits (r : FName) :
    digitsVal r = Nat.ofDigits 10 ((r.map (fun c => c.toNat - 48)).reverse) := by
  induction r using List.reverseRecOn with
  | nil => rfl
  | append_singleton l c ih =>
    have h1 : digitsVal (l ++ [c]) = 10 * digitsVal l + (c.toNat - 48) := by
      simp [digitsVal, List.foldl_append]
    rw [h1, ih]
    simp only [List.map_append, List.reverse_append, List.map_cons,
      List.map_nil, List.reverse_cons, List.reverse_nil, List.nil_append,
      List.cons_append, Nat.ofDigits_cons]
    omega

/-! ### Claims -/

/-- C1: for every directory listing, the produced manifest contains exactly
the entry names whose lowercased form starts with `"img"` and whose lowercased
extension is one of `.jpg .jpeg .png .webp .gif`; all other names are
excluded. Both checks are case-insensitive because they are performed on the
lowercased name. -/
theorem claim_C1_filter_exact (entries : List FName) (name : FName) :
    name ∈ buildManifest entries ↔ name ∈ entries ∧ specMatches name := by
  rw [mem_buildManifest]
  exact and_congr_right (fun _ => matchesFilter_iff_spec)

/-- C2 as stated is false: two distinct directory entries can have identical
sort keys. With `IMG5.PNG` listed before `img5.png`, both names parse to the
integer 5 and have the same lowercased name, so the claim's right-hand side
(equal integers and lexicographically `≤` lowercased names) holds for the pair
(`img5.png`, `IMG5.PNG`), yet `img5.png` does not precede `IMG5.PNG` in the
output. -/
theorem claim_C2_counterexample :
    ("img5.png".data).any Char.isDigit = true ∧
      ("IMG5.PNG".data).any Char.isDigit = true ∧
      natKey ("img5.png".data) = natKey ("IMG5.PNG".data) ∧
      strLe (lowerName ("img5.png".data)) (lowerName ("IMG5.PNG".data)) = true ∧
      ¬ precedes (buildManifest ["IMG5.PNG".data, "img5.png".data])
          ("img5.png".data) ("IMG5.PNG".data) := by
  refine ⟨by decide, by decide, by decide, by decide, ?_⟩
  intro h
  have hM : buildManifest ["IMG5.PNG".data, "img5.png".data] =
      ["IMG5.PNG".data, "img5.png".data] := by decide
  rw [hM] at h
  have h2 : (["img5.png".data, "IMG5.PNG".data]).Sublist
      (["IMG5.PNG".data, "img5.png".data]) := h
  have h3 := h2.eq_of_length rfl
  injection h3 with h4 _
  exact absurd h4 (by decide)

/-- C2 amended: for distinct manifest entries `a`, `b` that both contain a
digit run, `a` precedes `b` iff `a`'s parsed integer is smaller, or the
integers are equal and `a`'s lowercased name is strictly smaller, or the full
keys are equal and `a` precedes `b` in the directory listing order (the sort
is stable). The original claim's non-strict `≤` tiebreak fails exactly when
two distinct names share one sort key. -/
theorem claim_C2_order_iff (entries : List FName) (a b : FName)
    (_hda : a.any Char.isDigit = true) (_hdb : b.any Char.isDigit = true)
    (hne : a ≠ b) (ha : a ∈ buildManifest entries)
    (hb : b ∈ buildManifest entries) :
    precedes (buildManifest entries) a b ↔
      (natKey a < natKey b ∨
        (natKey a = natKey b ∧
          ((strLe (lowerName a) (lowerName b) = true ∧
              lowerName a ≠ lowerName b) ∨
            (lowerName a = lowerName b ∧ precedes (filesOf entries) a b)))) := by
  constructor
  · intro h
    have hle : keyLe a b = true := keyLe_of_precedes h
    rcases keyLe_iff.mp hle with h1 | ⟨h1, h1s⟩
    · exact Or.inl h1
    · by_cases heq : lowerName a = lowerName b
      · refine Or.inr ⟨h1, Or.inr ⟨heq, ?_⟩⟩
        have hkeq : keyfn a = keyfn b := by
          unfold keyfn
          rw [h1, heq]
        exact (precedes_isort_iff hkeq).mp h
      · exact Or.inr ⟨h1, Or.inl ⟨h1s, heq⟩⟩
  · intro h
    have htri := pair_sublist_or hne ha hb
    rcases h with h1 | ⟨h1, h2⟩
    · rcases htri with hab | hba
      · exact hab
      · have hle : keyLe b a = true := keyLe_of_precedes hba
        rcases keyLe_iff.mp hle with h2 | ⟨h2, _⟩
        · exact absurd h1 (lt_asymm h2)
        · rw [h2] at h1
          exact absurd h1 (lt_irrefl _)
    · rcases h2 with ⟨hs, hne2⟩ | ⟨heq, hpf⟩
      · rcases htri with hab | hba
        · exact hab
        · have hle : keyLe b a = true := keyLe_of_precedes hba
          rcases keyLe_iff.mp hle with h2 | ⟨h2, h2s⟩
          · rw [h1] at h2
            exact absurd h2 (lt_irrefl _)
          · exact absurd (strLe_antisymm hs h2s) hne2
      · have hkeq : keyfn a = keyfn b := by
          unfold keyfn
          rw [h1, heq]
        exact (precedes_isort_iff hkeq).mpr hpf

/-- C2 amended, instantiated: in the listing `img2.png, img10.webp` the first
name precedes the second iff its parsed integer 2 is smaller than 10 (which
holds). -/
theorem claim_C2_witness :
    precedes (buildManifest ["img2.png".data, "img10.webp".data])
        ("img2.png".data) ("img10.webp".data) ↔
      (natKey ("img2.png".data) < natKey ("img10.webp".data) ∨
        (natKey ("img2.png".data) = natKey ("img10.webp".data) ∧
          ((strLe (lowerName ("img2.png".data))
                (lowerName ("img10.webp".data)) = true ∧
              lowerName ("img2.png".data) ≠ lowerName ("img10.webp".data)) ∨
            (lowerName ("img2.png".data) = lowerName ("img10.webp".data) ∧
              precedes (filesOf ["img2.png".data, "img10.webp".data])
                ("img2.png".data) ("img10.webp".data))))) :=
  claim_C2_order_iff ["img2.png".data, "img10.webp".data]
    ("img2.png".data) ("img10.webp".data) (by decide) (by decide) (by decide)
    (by decide) (by decide)

/-- C3 as stated is false: the no-digit sentinel is `10^9`, so a filename
whose first digit run parses to `2000000000 > 10^9` sorts after the no-digit
name `imgx.png`, not before it. -/
theorem claim_C3_counterexample :
    ("imgx.png".data).any Char.isDigit = false ∧
      natKey ("img2000000000.png".data) = 2000000000 ∧
      buildManifest ["imgx.png".data, "img2000000000.png".data] =
        ["imgx.png".data, "img2000000000.png".data] ∧
      ¬ precedes (buildManifest ["imgx.png".data, "img2000000000.png".data])
          ("img2000000000.png".data) ("imgx.png".data) := by
  refine ⟨by decide, by decide, by decide, ?_⟩
  intro h
  have hM : buildManifest ["imgx.png".data, "img2000000000.png".data] =
      ["imgx.png".data, "img2000000000.png".data] := by decide
  rw [hM] at h
  have h2 : (["img2000000000.png".data, "imgx.png".data]).Sublist
      (["imgx.png".data, "img2000000000.png".data]) := h
  have h3 := h2.eq_of_length rfl
  injection h3 with h4 _
  exact absurd h4 (by decide)

/-- C3 amended: a manifest filename with no digit run is placed after every
manifest filename whose first digit run parses to a value below the sentinel
`10^9` (not after every numbered filename: runs parsing to `≥ 10^9` may sort
at or after the sentinel); no-digit filenames are ordered among themselves
alphabetically by lowercased name. -/
theorem claim_C3_sentinel_order (entries : List FName) (a b : FName)
    (ha : a ∈ buildManifest entries) (hb : b ∈ buildManifest entries)
    (hda : a.any Char.isDigit = false) :
    (natKey b < 10 ^ 9 → precedes (buildManifest entries) b a) ∧
      (b.any Char.isDigit = false → precedes (buildManifest entries) a b →
        strLe (lowerName a) (lowerName b) = true) := by
  constructor
  · intro hlt
    have hna : natKey a = 10 ^ 9 := natKey_of_no_digit hda
    have hne : b ≠ a := by
      intro h
      rw [h, hna] at hlt
      exact lt_irrefl _ hlt
    rcases pair_sublist_or hne hb ha with h | h
    · exact h
    · have hle := keyLe_of_precedes h
      rcases keyLe_iff.mp hle with h1 | ⟨h1, _⟩
      · rw [hna] at h1
        exact absurd h1 (lt_asymm hlt)
      · rw [hna] at h1
        rw [← h1] at hlt
        exact absurd hlt (lt_irrefl _)
  · intro hdb hpre
    have hle := keyLe_of_precedes hpre
    rcases keyLe_iff.mp hle with h1 | ⟨_, h1s⟩
    · rw [natKey_of_no_digit hda, natKey_of_no_digit hdb] at h1
      exact absurd h1 (lt_irrefl _)
    · exact h1s

/-- C3 amended, instantiated at the listing `imgx.png, img2.png`: the numbered
name (key 2, below the sentinel) precedes the no-digit name. -/
theorem claim_C3_witness :
    (natKey ("img2.png".data) < 10 ^ 9 →
        precedes (buildManifest ["imgx.png".data, "img2.png".data])
          ("img2.png".data) ("imgx.png".data)) ∧
      (("img2.png".data).any Char.isDigit = false →
        precedes (buildManifest ["imgx.png".data, "img2.png".data])
          ("imgx.png".data) ("img2.png".data) →
        strLe (lowerName ("imgx.png".data)) (lowerName ("img2.png".data)) =
          true) :=
  claim_C3_sentinel_order ["imgx.png".data, "img2.png".data]
    ("imgx.png".data) ("img2.png".data) (by decide) (by decide) (by decide)

/-- C4: the numeric part of the sort key is the base-10 value of the first
maximal digit run, wherever it occurs in the name; later runs are ignored.
The hypotheses say exactly that `run` is the first maximal digit run of
`pre ++ run ++ rest`: no digit before it, all digits, not extendable to the
right. -/
theorem claim_C4_first_run (pre run rest : FName)
    (hpre : pre.all (fun c => !c.isDigit) = true) (hrun : run ≠ [])
    (hrund : run.all Char.isDigit = true)
    (hrest : headNotDigit rest = true) :
    firstRun (pre ++ run ++ rest) = some run ∧
      natKey (pre ++ run ++ rest) = digitsVal run :=
  ⟨firstRun_decomp hpre hrun hrund hrest,
    natKey_decomp hpre hrun hrund hrest⟩

/-- C4 instantiated at `img10_v2.jpg` (= `img` ++ `10` ++ `_v2.jpg`): the key
uses the first run `10`, not the later run `2`. -/
theorem claim_C4_witness :
    firstRun ("img".data ++ ['1', '0'] ++ "_v2.jpg".data) = some ['1', '0'] ∧
      natKey ("img".data ++ ['1', '0'] ++ "_v2.jpg".data) =
        digitsVal ['1', '0'] :=
  claim_C4_first_run ("img".data) ['1', '0'] ("_v2.jpg".data) (by decide)
    (by decide) (by decide) (by decide)

/-- C5 as stated is false: the script filters by name only and never checks
the entry kind, so a subdirectory named `img5.png` inside `img` is listed by
`os.listdir`, passes the name filter, and does appear in the manifest. -/
theorem claim_C5_counterexample :
    (DirEntry.mk ("img5.png".data) true) ∈
        [DirEntry.mk ("img5.png".data) true] ∧
      (DirEntry.mk ("img5.png".data) true).isDir = true ∧
      ("img5.png".data) ∈ manifestOfDir [DirEntry.mk ("img5.png".data) true] := by
  refine ⟨by decide, rfl, ?_⟩
  unfold manifestOfDir
  rw [mem_buildManifest]
  exact ⟨by decide, by decide⟩

/-- C5 amended: inclusion in the manifest depends only on an entry's name,
never on whether the entry is a file or a subdirectory. An entry whose name
fails the prefix or extension check is silently excluded (no error); an entry
whose name passes is included, even when it is a subdirectory. -/
theorem claim_C5_name_only (l : List DirEntry) (e : DirEntry) (he : e ∈ l) :
    e.name ∈ manifestOfDir l ↔ matchesFilter e.name = true := by
  unfold manifestOfDir
  rw [mem_buildManifest]
  constructor
  · rintro ⟨_, h⟩
    exact h
  · intro h
    refine ⟨?_, h⟩
    unfold listingNames
    exact List.mem_map_of_mem DirEntry.name he

/-- C5 amended, instantiated: a subdirectory named `img5.png` is in the
manifest of a listing consisting of exactly that subdirectory, because its
name passes the filter. -/
theorem claim_C5_witness :
    ("img5.png".data) ∈ manifestOfDir [DirEntry.mk ("img5.png".data) true] ↔
      matchesFilter ("img5.png".data) = true :=
  claim_C5_name_only [DirEntry.mk ("img5.png".data) true]
    (DirEntry.mk ("img5.png".data) true) (by decide)

/-- C6: when the image directory cannot be listed, `os.listdir` raises, the
exception is uncaught, the interpreter exits with status 1 (non-zero), and the
run ends before any write: `images.json` is not created and a pre-existing
`images.json` is left unchanged (the final state is the initial state). -/
theorem claim_C6_listdir_failure (m0 : Option (List Char)) :
    runProgram (DirState.mk none m0) = RunResult.err (DirState.mk none m0) ∧
      exitCode (runProgram (DirState.mk none m0)) = 1 ∧
      (finalState (runProgram (DirState.mk none m0))).manifestFile = m0 :=
  ⟨rfl, rfl, rfl⟩

/-- C7: running the tool twice on an unchanged directory writes byte-identical
`images.json` both times. The second run's listing additionally contains
`images.json` (inserted at an arbitrary position), which the first run itself
created, but that name fails the filter (its lowercased form begins `ima`,
not `img`), so the second run serializes the same manifest. -/
theorem claim_C7_idempotent (l1 l2 : List FName) (m0 : Option (List Char)) :
    (finalState (runProgram (DirState.mk
          (some (l1 ++ imagesJsonName :: l2))
          (finalState (runProgram (DirState.mk (some (l1 ++ l2))
            m0))).manifestFile))).manifestFile =
      (finalState (runProgram (DirState.mk (some (l1 ++ l2))
        m0))).manifestFile := by
  have hm : matchesFilter imagesJsonName = false := by decide
  have hfil : filesOf (l1 ++ imagesJsonName :: l2) = filesOf (l1 ++ l2) := by
    unfold filesOf
    rw [List.filter_append, List.filter_append, List.filter_cons, hm]
    simp
  show some (serializeManifest (buildManifest (l1 ++ imagesJsonName :: l2))) =
    some (serializeManifest (buildManifest (l1 ++ l2)))
  unfold buildManifest
  rw [hfil]

/-- C8: for a name decomposed around its first maximal digit run, the numeric
key is the exact base-10 value of that run — `Nat.ofDigits 10` of its digit
values, least significant first — with no overflow or truncation regardless of
the run's length. -/
theorem claim_C8_exact_value (pre run rest : FName)
    (hpre : pre.all (fun c => !c.isDigit) = true) (hrun : run ≠ [])
    (hrund : run.all Char.isDigit = true)
    (hrest : headNotDigit rest = true) :
    natKey (pre ++ run ++ rest) =
      Nat.ofDigits 10 ((run.map (fun c => c.toNat - 48)).reverse) := by
  rw [natKey_decomp hpre hrun hrund hrest, digitsVal_eq_ofDigits]

/-- C8 instantiated at a 30-digit run, far beyond any fixed-width integer. -/
theorem claim_C8_witness :
    natKey ("img".data ++ "123456789012345678901234567890".data ++
        ".png".data) =
      Nat.ofDigits 10
        ((("123456789012345678901234567890".data).map
          (fun c => c.toNat - 48)).reverse) :=
  claim_C8_exact_value ("img".data) ("123456789012345678901234567890".data)
    (".png".data) (by decide) (by decide) (by decide) (by decide)

/-- C9 as stated is false about the mechanism of exclusion: the lowercased
name of `images.json` does not start with `img` — its first three characters
are `i`, `m`, `a` — so `low.startswith("img")` is `False` and the `and` on
line 9 short-circuits before the extension is ever consulted. -/
theorem claim_C9_counterexample :
    startsWithImg (lowerName imagesJsonName) = false ∧
      (lowerName imagesJsonName).take 3 = ['i', 'm', 'a'] := by
  exact ⟨by decide, by decide⟩

/-- C9 amended: the string `images.json` never occurs in the produced manifest
(its occurrence count is 0 for every listing), because its lowercased name
fails the `img` prefix check (it begins `ima`), so the tool's own output file
in the scanned directory is always filtered out. -/
theorem claim_C9_own_output_excluded (entries : List FName) :
    startsWithImg (lowerName imagesJsonName) = false ∧
      (buildManifest entries).count imagesJsonName = 0 := by
  refine ⟨by decide, ?_⟩
  rw [List.count_eq_zero]
  intro h
  exact absurd (mem_buildManifest.mp h).2 (by decide)

/-- C10: every manifest element is a directory entry name reproduced verbatim
(membership in the original listing, original case: lowercasing happens only
inside the filter and the sort key), and for a duplicate-free listing each
qualifying entry occurs in the manifest exactly once. -/
theorem claim_C10_verbatim_once (entries : List FName) (x : FName)
    (hnd : entries.Nodup) :
    (x ∈ buildManifest entries → x ∈ entries) ∧
      (x ∈ entries → matchesFilter x = true →
        (buildManifest entries).count x = 1) := by
  constructor
  · intro h
    exact (mem_buildManifest.mp h).1
  · intro hx hm
    have hnodup : (buildManifest entries).Nodup := by
      unfold buildManifest
      exact ((isort_perm keyLe (filesOf entries)).symm).nodup
        (hnd.filter matchesFilter)
    exact count_eq_one_of_nodup hnodup (mem_buildManifest.mpr ⟨hx, hm⟩)

/-- C10 instantiated at the listing `IMG3.GIF, cover.png` and the qualifying
name `IMG3.GIF`: it reappears verbatim (upper case preserved) exactly once. -/
theorem claim_C10_witness :
    (("IMG3.GIF".data) ∈ buildManifest ["IMG3.GIF".data, "cover.png".data] →
        ("IMG3.GIF".data) ∈ ["IMG3.GIF".data, "cover.png".data]) ∧
      (("IMG3.GIF".data) ∈ ["IMG3.GIF".data, "cover.png".data] →
        matchesFilter ("IMG3.GIF".data) = true →
        (buildManifest ["IMG3.GIF".data, "cover.png".data]).count
          ("IMG3.GIF".data) = 1) :=
  claim_C10_verbatim_once ["IMG3.GIF".data, "cover.png".data]
    ("IMG3.GIF".data) (by decide)
